import Mathlib

/-!
Shallow embedding of the Game Day Master Chef rating application
(single Flask module `app.py`): the rating store (one `ratings` table),
the submit/upsert endpoint, the own-rating lookup, the leaderboard and
word-count aggregators, the CSV export, and the admin password gate and
reset.  Machine-level concerns (HTTP, cookies, SQLite storage engine)
are abstracted: the table is a list of rows, the session flag a `Bool`,
request payloads explicit arguments.  Python exceptions that abort a
request (failed `int()` conversion, out-of-range list indexing) are
modelled with `Option`.
-/

set_option maxRecDepth 10000

namespace MC

/-! ### Python string primitives used by the handlers -/

/-- Python's whitespace set for `str.strip` / `str.split` with no
arguments: space, tab, newline, carriage return, vertical tab, form feed. -/
def pyIsSpace (c : Char) : Bool :=
  c = ' ' || c = '\t' || c = '\n' || c = '\r' || c = '\x0b' || c = '\x0c'

/-- Python `s.strip()`: drop leading and trailing whitespace. -/
def pyStrip (s : String) : String :=
  String.mk (((s.toList.dropWhile pyIsSpace).reverse.dropWhile pyIsSpace).reverse)

/-- Python `s.split()` (no separator): split on runs of whitespace,
discarding empty pieces. -/
def pySplit (s : String) : List String :=
  ((s.toList.splitOnP pyIsSpace).filter (fun l => l ≠ [])).map String.mk

/-- Decimal digit value of a character, if it is one. -/
def digitVal (c : Char) : Option Nat :=
  if '0' ≤ c ∧ c ≤ '9' then some (c.toNat - '0'.toNat) else none

/-- Parse a non-empty all-digit string as a natural number. -/
def parseDigits (l : List Char) : Option Nat :=
  if l = [] then none
  else l.foldl (fun acc c => acc.bind fun n => (digitVal c).map fun d => n * 10 + d) (some 0)

/-- Python `int(s)` on a string: strip whitespace, optional sign, decimal
digits; anything else raises `ValueError` (modelled as `none`).
(Python additionally allows underscores between digits; no handler input
in this application depends on that.) -/
def pyIntOfString (s : String) : Option Int :=
  match (pyStrip s).toList with
  | '-' :: ds => (parseDigits ds).map fun n => -(n : Int)
  | '+' :: ds => (parseDigits ds).map fun n => (n : Int)
  | ds => (parseDigits ds).map fun n => (n : Int)

/-! ### JSON scalar values and Python `int()` conversion -/

/-- A JSON scalar as delivered by `request.get_json()`; `jnull` also
stands for an absent key (`data.get` returns `None`).  JSON numbers are
either integral (`jint`) or general (`jfloat`, modelled as a rational:
every finite binary float is rational). -/
inductive JVal where
  | jnull : JVal
  | jbool : Bool → JVal
  | jint : Int → JVal
  | jfloat : ℚ → JVal
  | jstr : String → JVal
deriving DecidableEq

/-- Python `int(v)`: fails on `None`; `True`/`False` become 1/0; an
integer is itself; a float is truncated toward zero; a string is parsed
as a (signed) decimal numeral. -/
def pyToInt : JVal → Option Int
  | .jnull => none
  | .jbool b => some (if b then 1 else 0)
  | .jint n => some n
  | .jfloat q => some (q.num.tdiv (q.den : Int))
  | .jstr s => pyIntOfString s

/-! ### Data model: the `ratings` table -/

/-- The fixed entrant list of `app.py`. -/
def ENTRANTS : List String :=
  ["Javier", "Lindsay", "Yesenia", "Bryan", "Viviana", "Bernie", "Rogelio",
   "Daniella", "Colleen", "Justin", "Paige", "Nic", "Martha", "Steve"]

/-- One row of the `ratings` table.  `created_at` is an abstract
timestamp (set on insert, never updated); `id` is the AUTOINCREMENT
surrogate key. -/
structure Row where
  id : Nat
  entrant_index : Int
  taste : Int
  presentation : Int
  easy : Int
  judge : Option String
  device_id : String
  one_word : Option String
  created_at : Nat
deriving DecidableEq

/-- The table plus the AUTOINCREMENT counter (SQLite AUTOINCREMENT never
reuses ids, even after a bulk delete). -/
structure DB where
  rows : List Row
  nextId : Nat
deriving DecidableEq

/-- The `UNIQUE (entrant_index, device_id)` key of a row. -/
def keyMatch (ei : Int) (dev : String) (r : Row) : Bool :=
  r.entrant_index == ei && r.device_id == dev

/-- All rows stored under a given `(entrant_index, device_id)` key. -/
def rowsKey (db : DB) (ei : Int) (dev : String) : List Row :=
  db.rows.filter (keyMatch ei dev)

/-- `SELECT ... WHERE entrant_index=? AND device_id=?` point lookup
(first matching row). -/
def findRow (db : DB) (ei : Int) (dev : String) : Option Row :=
  db.rows.find? (keyMatch ei dev)

/-! ### Submit endpoint `/api/rate` -/

/-- `sanitize_one_word` of `app.py`: `None`/empty input gives `None`;
otherwise strip, and if anything remains take the first
whitespace-delimited token truncated to 20 characters. -/
def sanitize_one_word (s : Option String) : Option String :=
  match s with
  | none => none
  | some s =>
    if s = "" then none
    else
      let t := pyStrip s
      if t = "" then none
      else some (((pySplit t).headD "").take 20)

/-- The judge normalization of `api_rate`:
`(data.get("judge") or "").strip()[:50] or None`. -/
def sanitize_judge (s : Option String) : Option String :=
  let t := (pyStrip (s.getD "")).take 50
  if t = "" then none else some t

/-- The JSON body of a `/api/rate` request; `jnull` marks an absent key.
`judge` and `one_word` are string-or-absent (a non-string value there
would abort the request in Python; the claims only concern strings). -/
structure Payload where
  entrant_index : JVal
  taste : JVal
  presentation : JVal
  easy : JVal
  judge : Option String
  one_word : Option String
deriving DecidableEq

/-- Outcome of `/api/rate`: the three 400 responses and the 200. -/
inductive RateResult where
  | invalidPayload : RateResult
  | invalidEntrant : RateResult
  | invalidScore : RateResult
  | ok : RateResult
deriving DecidableEq

/-- The `INSERT ... ON CONFLICT(entrant_index, device_id) DO UPDATE`
statement: if a row with the key exists, overwrite its
taste/presentation/easy/judge/one_word (keeping `id` and `created_at`);
otherwise append a fresh row with the next id and the current time. -/
def upsert (db : DB) (ei taste pres easy : Int) (judge : Option String)
    (dev : String) (ow : Option String) (now : Nat) : DB :=
  if db.rows.any (keyMatch ei dev) then
    { db with rows := db.rows.map fun r =>
        if keyMatch ei dev r then
          { r with taste := taste, presentation := pres, easy := easy,
                   judge := judge, one_word := ow }
        else r }
  else
    { rows := db.rows ++ [{ id := db.nextId, entrant_index := ei, taste := taste,
                            presentation := pres, easy := easy, judge := judge,
                            device_id := dev, one_word := ow, created_at := now }],
      nextId := db.nextId + 1 }

/-- `api_rate` of `app.py`: convert the four numeric fields with
`int()` (any failure is the "Invalid payload" 400), normalize judge and
one_word, range-check the entrant index and the three scores, then
upsert. -/
def api_rate (db : DB) (data : Payload) (dev : String) (now : Nat) : DB × RateResult :=
  match pyToInt data.entrant_index, pyToInt data.taste,
        pyToInt data.presentation, pyToInt data.easy with
  | some entrant_index, some taste, some presentation, some easy =>
    let judge := sanitize_judge data.judge
    let one_word := sanitize_one_word data.one_word
    if ¬ (0 ≤ entrant_index ∧ entrant_index < (ENTRANTS.length : Int)) then
      (db, .invalidEntrant)
    else if taste < 1 ∨ 5 < taste then (db, .invalidScore)
    else if presentation < 1 ∨ 5 < presentation then (db, .invalidScore)
    else if easy < 1 ∨ 5 < easy then (db, .invalidScore)
    else (upsert db entrant_index taste presentation easy judge dev one_word now, .ok)
  | _, _, _, _ => (db, .invalidPayload)

/-! ### Own-rating lookup `/api/my-rating` -/

/-- Outcome of `/api/my-rating`: `badIndex` is the 400 "Bad entrant
index" response; the other two are the 200 responses with and without a
rating. -/
inductive MyRatingResult where
  | badIndex : MyRatingResult
  | found : Row → MyRatingResult
  | noRating : MyRatingResult
deriving DecidableEq

/-- `api_my_rating` of `app.py`: parse
`request.args.get("entrant_index", "-1")` with `int()` (failure is the
400); an out-of-range index returns the ordinary `rating: null`
response; otherwise point-lookup by `(entrant_index, device_id)`. -/
def api_my_rating (db : DB) (arg : Option String) (dev : String) : MyRatingResult :=
  match pyIntOfString (arg.getD "-1") with
  | none => .badIndex
  | some entrant_index =>
    if 0 ≤ entrant_index ∧ entrant_index < (ENTRANTS.length : Int) then
      match findRow db entrant_index dev with
      | some r => .found r
      | none => .noRating
    else .noRating

/-! ### Admin password gate, reset, logout -/

/-- Default configured admin secret of `app.py`
(`os.environ.get("ADMIN_PASSWORD", "MASTERCHEF2025")`). -/
def ADMIN_PASSWORD : String := "MASTERCHEF2025"

/-- The POST branch of the `/admin` route: strip the submitted form
password and compare with the configured secret; on match set the
session flag, otherwise leave it as it was (and re-render the login
form). -/
def admin_post (secret : String) (isAdmin : Bool) (password : Option String) : Bool :=
  if pyStrip (password.getD "") = secret then true else isAdmin

/-- What the GET branch of `/admin` renders. -/
inductive AdminPage where
  | login : AdminPage
  | results : AdminPage
deriving DecidableEq

/-- The GET branch of `/admin`: without the session flag the login
template is rendered instead of the detailed results. -/
def admin_get (isAdmin : Bool) : AdminPage :=
  if isAdmin then .results else .login

/-- `/admin/reset`: with the session flag, `DELETE FROM ratings`
(the AUTOINCREMENT counter survives) and report success; without it,
redirect to `/admin` (which renders the login prompt) touching nothing.
The boolean reports whether the delete ran. -/
def admin_reset (isAdmin : Bool) (db : DB) : DB × Bool :=
  if isAdmin then ({ db with rows := [] }, true) else (db, false)

/-! ### Helper lemmas about stripping -/

theorem mk_eq_empty_iff (l : List Char) : String.mk l = "" ↔ l = [] := by
  constructor
  · intro h
    have : (String.mk l).data = String.data "" := by rw [h]
    simpa using this
  · intro h; simp [h]

theorem forall_dropWhile_iff (p : Char → Bool) (l : List Char) :
    (∀ x ∈ l.dropWhile p, p x = true) ↔ (∀ x ∈ l, p x = true) := by
  induction l with
  | nil => simp
  | cons a l ih =>
    by_cases ha : p a = true
    · simp only [List.dropWhile_cons, ha, if_true]
      rw [ih]
      constructor
      · intro h x hx
        rcases List.mem_cons.mp hx with rfl | hx
        · exact ha
        · exact h x hx
      · intro h x hx; exact h x (List.mem_cons_of_mem _ hx)
    · simp only [List.dropWhile_cons, ha, if_false]
      constructor
      · intro h; exact absurd (h a (List.mem_cons_self _ _)) ha
      · intro h; intro x hx; exact h x hx

theorem pyStrip_eq_empty_iff (s : String) :
    pyStrip s = "" ↔ s.toList.all pyIsSpace = true := by
  unfold pyStrip
  rw [mk_eq_empty_iff, List.reverse_eq_nil_iff, List.dropWhile_eq_nil_iff,
      List.all_eq_true]
  constructor
  · intro h
    have h' : ∀ x ∈ (s.toList.dropWhile pyIsSpace), pyIsSpace x = true := by
      intro x hx
      exact h x (List.mem_reverse.mpr hx)
    exact (forall_dropWhile_iff pyIsSpace s.toList).mp h'
  · intro h x hx
    exact (forall_dropWhile_iff pyIsSpace s.toList).mpr h x (List.mem_reverse.mp hx)

/-- Claim C7: `sanitize_one_word` stores absent exactly when the input is
empty or only whitespace; otherwise it stores the first
whitespace-delimited token of the trimmed input truncated to 20
characters.  In particular `"  Delicious extra words  "` is stored as
`"Delicious"`, pure whitespace is stored as absent, and a 25-character
token is cut to its first 20 characters. -/
theorem sanitize_one_word_spec :
    (∀ s : String, (sanitize_one_word (some s) = none ↔ s.toList.all pyIsSpace = true)) ∧
    (∀ s : String, s.toList.all pyIsSpace ≠ true →
       sanitize_one_word (some s) = some (((pySplit (pyStrip s)).headD "").take 20)) ∧
    sanitize_one_word (some "  Delicious extra words  ") = some "Delicious" ∧
    sanitize_one_word (some " \t ") = none ∧
    sanitize_one_word none = none ∧
    sanitize_one_word (some (String.mk (List.replicate 25 'a'))) =
      some (String.mk (List.replicate 20 'a')) := by
  refine ⟨?_, ?_, by decide, by decide, rfl, by decide⟩
  · intro s
    unfold sanitize_one_word
    by_cases hs : s = ""
    · subst hs; simp
    · simp only [hs, if_false]
      by_cases ht : pyStrip s = ""
      · simp only [ht, if_true, true_iff]
        exact (pyStrip_eq_empty_iff s).mp ht
      · simp only [ht, if_false]
        constructor
        · intro h; exact absurd h (by simp)
        · intro h; exact absurd ((pyStrip_eq_empty_iff s).mpr h) ht
  · intro s h
    have hs : s ≠ "" := by
      intro hs; subst hs; exact h (by decide)
    have ht : pyStrip s ≠ "" := fun ht => h ((pyStrip_eq_empty_iff s).mp ht)
    unfold sanitize_one_word
    simp [hs, ht]

/-- Witness for C7: the universally quantified parts applied at concrete
inputs. -/
theorem sanitize_one_word_spec_witness :
    sanitize_one_word (some "  Delicious extra words  ") =
      some (((pySplit (pyStrip "  Delicious extra words  ")).headD "").take 20) :=
  sanitize_one_word_spec.2.1 "  Delicious extra words  " (by decide)

/-- Claim C3 (counterexample): the submitted password
`" MASTERCHEF2025"` is not exactly equal to the configured secret, yet
the admin flag is set, because the handler strips the submission before
comparing. -/
theorem admin_post_counterexample :
    admin_post ADMIN_PASSWORD false (some " MASTERCHEF2025") = true ∧
    " MASTERCHEF2025" ≠ ADMIN_PASSWORD := by
  constructor <;> decide

/-- Claim C3 (amended): the admin flag ends up set iff the submitted
password, stripped of leading and trailing whitespace, is exactly equal
to the configured secret, or the flag was already set; a submission
whose stripped form differs from the secret does not set it. -/
theorem admin_post_amended (secret : String) (flag : Bool) (pw : Option String) :
    admin_post secret flag pw = true ↔
      (pyStrip (pw.getD "") = secret ∨ flag = true) := by
  unfold admin_post
  split <;> simp_all

/-- Claim C2 (counterexample): fetching the own rating for
`entrant_index = 14` (out of range, `ENTRANTS` has 14 entries) returns
the ordinary "no rating" response, not the `badIndex` validation
error. -/
theorem api_my_rating_counterexample :
    api_my_rating ⟨[], 1⟩ (some "14") "anon" = MyRatingResult.noRating ∧
    MyRatingResult.noRating ≠ MyRatingResult.badIndex := by
  constructor <;> decide

/-- Claim C2 (amended): an out-of-range `entrant_index` makes
`api_my_rating` return the ordinary "no rating" result; the validation
error occurs only when the index fails integer parsing. -/
theorem api_my_rating_amended (db : DB) (arg : Option String) (dev : String) :
    (∀ ei : Int, pyIntOfString (arg.getD "-1") = some ei →
        ¬ (0 ≤ ei ∧ ei < (ENTRANTS.length : Int)) →
        api_my_rating db arg dev = MyRatingResult.noRating) ∧
    (pyIntOfString (arg.getD "-1") = none →
        api_my_rating db arg dev = MyRatingResult.badIndex) := by
  constructor
  · intro ei hparse hrange
    unfold api_my_rating
    rw [hparse]
    simp [hrange]
  · intro hparse
    unfold api_my_rating
    rw [hparse]

/-- Witness for C2's amended theorem: an empty table queried at index
14 (one past the last entrant) answers "no rating". -/
theorem api_my_rating_amended_witness :
    api_my_rating ⟨[], 1⟩ (some "14") "anon" = MyRatingResult.noRating :=
  (api_my_rating_amended ⟨[], 1⟩ (some "14") "anon").1 14 (by decide) (by decide)

/-- Claim C4 (counterexample): a submission whose `taste` is the
non-integral numeric value 37/10 is not rejected: Python's `int()`
truncates it to 3 and the row is written. -/
theorem api_rate_counterexample :
    api_rate ⟨[], 1⟩ ⟨.jint 0, .jfloat (mkRat 37 10), .jint 4, .jint 5, none, none⟩ "anon" 7 =
      (⟨[{ id := 1, entrant_index := 0, taste := 3, presentation := 4, easy := 5,
           judge := none, device_id := "anon", one_word := none, created_at := 7 }], 2⟩,
       .ok) ∧
    (mkRat 37 10).den ≠ 1 := by
  constructor <;> decide

/-- Claim C4 (amended): a score value on which Python `int()` conversion
fails (absent, non-numeric string, null) makes `api_rate` fail with the
"Invalid payload" validation error and leaves the table untouched;
non-integral numeric values are instead truncated toward zero and
accepted when in range. -/
theorem api_rate_amended (db : DB) (data : Payload) (dev : String) (now : Nat)
    (h : pyToInt data.taste = none ∨ pyToInt data.presentation = none ∨
         pyToInt data.easy = none) :
    api_rate db data dev now = (db, RateResult.invalidPayload) := by
  unfold api_rate
  rcases h1 : pyToInt data.entrant_index with _ | v1 <;>
    rcases h2 : pyToInt data.taste with _ | v2 <;>
      rcases h3 : pyToInt data.presentation with _ | v3 <;>
        rcases h4 : pyToInt data.easy with _ | v4 <;>
          simp_all

/-- Witness for C4's amended theorem: a non-numeric `taste` string is
rejected with no write. -/
theorem api_rate_amended_witness :
    api_rate ⟨[], 1⟩ ⟨.jint 0, .jstr "abc", .jint 4, .jint 5, none, none⟩ "anon" 7 =
      (⟨[], 1⟩, RateResult.invalidPayload) :=
  api_rate_amended ⟨[], 1⟩ ⟨.jint 0, .jstr "abc", .jint 4, .jint 5, none, none⟩ "anon" 7
    (Or.inl (by decide))

/-! ### Upsert behaviour (claim C1) -/

theorem rowsKey_eq_nil_iff_any (db : DB) (ei : Int) (dev : String) :
    rowsKey db ei dev = [] ↔ db.rows.any (keyMatch ei dev) = false := by
  unfold rowsKey
  rw [List.filter_eq_nil_iff, List.any_eq_false]

theorem mem_of_rowsKey_singleton {db : DB} {ei : Int} {dev : String} {r : Row}
    (h : rowsKey db ei dev = [r]) : r ∈ db.rows ∧ keyMatch ei dev r = true := by
  have hr : r ∈ db.rows.filter (keyMatch ei dev) := by
    rw [show db.rows.filter (keyMatch ei dev) = rowsKey db ei dev from rfl, h]
    exact List.mem_singleton.mpr rfl
  exact ⟨(List.mem_filter.mp hr).1, (List.mem_filter.mp hr).2⟩

theorem rowsKey_upsert_insert (db : DB) (ei : Int) (dev : String)
    (t p e : Int) (j w : Option String) (now : Nat)
    (h : rowsKey db ei dev = []) :
    rowsKey (upsert db ei t p e j dev w now) ei dev =
      [{ id := db.nextId, entrant_index := ei, taste := t, presentation := p,
         easy := e, judge := j, device_id := dev, one_word := w, created_at := now }] := by
  have hany : db.rows.any (keyMatch ei dev) = false :=
    (rowsKey_eq_nil_iff_any db ei dev).mp h
  unfold upsert
  rw [hany]
  show rowsKey ⟨db.rows ++ [_], _⟩ ei dev = _
  unfold rowsKey
  rw [List.filter_append]
  have h0 : db.rows.filter (keyMatch ei dev) = [] := h
  rw [h0, List.nil_append, List.filter_cons]
  simp [keyMatch]

theorem rowsKey_upsert_update (db : DB) (ei : Int) (dev : String)
    (t p e : Int) (j w : Option String) (now : Nat) (r0 : Row)
    (h : rowsKey db ei dev = [r0]) :
    rowsKey (upsert db ei t p e j dev w now) ei dev =
      [{ r0 with taste := t, presentation := p, easy := e, judge := j, one_word := w }] := by
  obtain ⟨hmem, hkey⟩ := mem_of_rowsKey_singleton h
  have hany : db.rows.any (keyMatch ei dev) = true :=
    List.any_eq_true.mpr ⟨r0, hmem, hkey⟩
  set f : Row → Row := fun r =>
    if keyMatch ei dev r then
      { r with taste := t, presentation := p, easy := e, judge := j, one_word := w }
    else r with hf
  have hpres : ∀ r : Row, keyMatch ei dev (f r) = keyMatch ei dev r := by
    intro r
    rw [hf]
    by_cases hr : keyMatch ei dev r = true
    · simp only [hr, if_true]
      unfold keyMatch at hr ⊢
      exact hr
    · simp only [Bool.not_eq_true] at hr
      simp [hr]
  unfold upsert
  rw [hany]
  show rowsKey ⟨db.rows.map f, _⟩ ei dev = _
  unfold rowsKey
  rw [List.filter_map]
  have hcong : db.rows.filter (keyMatch ei dev ∘ f) = db.rows.filter (keyMatch ei dev) := by
    apply List.filter_congr
    intro x _
    exact hpres x
  rw [hcong]
  have h0 : db.rows.filter (keyMatch ei dev) = [r0] := h
  rw [h0]
  simp only [List.map_cons, List.map_nil]
  rw [hf]
  simp [hkey]

theorem api_rate_valid (db : DB) (dev : String) (ei t p e : Int) (j w : Option String) (now : Nat)
    (hei : 0 ≤ ei ∧ ei < (ENTRANTS.length : Int))
    (ht : 1 ≤ t ∧ t ≤ 5) (hp : 1 ≤ p ∧ p ≤ 5) (he : 1 ≤ e ∧ e ≤ 5) :
    api_rate db ⟨.jint ei, .jint t, .jint p, .jint e, j, w⟩ dev now =
      (upsert db ei t p e (sanitize_judge j) dev (sanitize_one_word w) now, .ok) := by
  show (if ¬ (0 ≤ ei ∧ ei < (ENTRANTS.length : Int)) then (db, RateResult.invalidEntrant)
    else if t < 1 ∨ 5 < t then (db, .invalidScore)
    else if p < 1 ∨ 5 < p then (db, .invalidScore)
    else if e < 1 ∨ 5 < e then (db, .invalidScore)
    else (upsert db ei t p e (sanitize_judge j) dev (sanitize_one_word w) now, .ok)) = _
  rw [if_neg (not_not_intro hei), if_neg (by omega), if_neg (by omega), if_neg (by omega)]

/-- Claim C1: submitting a valid rating twice for the same
`(entrant_index, device_id)` key (on a table holding at most one row for
that key, as the UNIQUE constraint guarantees) leaves exactly one stored
row for the key; its scores, judge and one_word are the second
submission's values and its `id` and `created_at` are those of the row
produced by the first submission. -/
theorem api_rate_upsert_twice
    (db : DB) (dev : String) (ei t1 p1 e1 t2 p2 e2 : Int)
    (j1 j2 w1 w2 : Option String) (now1 now2 : Nat)
    (hkey : (rowsKey db ei dev).length ≤ 1)
    (hei : 0 ≤ ei ∧ ei < (ENTRANTS.length : Int))
    (ht1 : 1 ≤ t1 ∧ t1 ≤ 5) (hp1 : 1 ≤ p1 ∧ p1 ≤ 5) (he1 : 1 ≤ e1 ∧ e1 ≤ 5)
    (ht2 : 1 ≤ t2 ∧ t2 ≤ 5) (hp2 : 1 ≤ p2 ∧ p2 ≤ 5) (he2 : 1 ≤ e2 ∧ e2 ≤ 5)
    (hdiff : (t1, p1, e1) ≠ (t2, p2, e2)) :
    ∀ db1 res1 db2 res2,
      api_rate db ⟨.jint ei, .jint t1, .jint p1, .jint e1, j1, w1⟩ dev now1 = (db1, res1) →
      api_rate db1 ⟨.jint ei, .jint t2, .jint p2, .jint e2, j2, w2⟩ dev now2 = (db2, res2) →
      res1 = RateResult.ok ∧ res2 = RateResult.ok ∧
      ∃ ra rb : Row,
        rowsKey db1 ei dev = [ra] ∧ rowsKey db2 ei dev = [rb] ∧
        rb.id = ra.id ∧ rb.created_at = ra.created_at ∧
        rb.taste = t2 ∧ rb.presentation = p2 ∧ rb.easy = e2 ∧
        rb.judge = sanitize_judge j2 ∧ rb.one_word = sanitize_one_word w2 := by
  intro db1 res1 db2 res2 h1 h2
  rw [api_rate_valid db dev ei t1 p1 e1 j1 w1 now1 hei ht1 hp1 he1] at h1
  injection h1 with hdb1 hres1
  subst hdb1
  subst hres1
  rw [api_rate_valid _ dev ei t2 p2 e2 j2 w2 now2 hei ht2 hp2 he2] at h2
  injection h2 with hdb2 hres2
  subst hdb2
  subst hres2
  refine ⟨rfl, rfl, ?_⟩
  generalize sanitize_judge j1 = J1
  generalize sanitize_one_word w1 = W1
  generalize sanitize_judge j2 = J2
  generalize sanitize_one_word w2 = W2
  cases hl : rowsKey db ei dev with
  | nil =>
    have ha := rowsKey_upsert_insert db ei dev t1 p1 e1 J1 W1 now1 hl
    have hb := rowsKey_upsert_update (upsert db ei t1 p1 e1 J1 dev W1 now1)
      ei dev t2 p2 e2 J2 W2 now2 _ ha
    exact ⟨_, _, ha, hb, rfl, rfl, rfl, rfl, rfl, rfl, rfl⟩
  | cons r0 rest =>
    have hrest : rest = [] := by
      rw [hl] at hkey
      simpa using hkey
    subst hrest
    have ha := rowsKey_upsert_update db ei dev t1 p1 e1 J1 W1 now1 r0 hl
    have hb := rowsKey_upsert_update (upsert db ei t1 p1 e1 J1 dev W1 now1)
      ei dev t2 p2 e2 J2 W2 now2 _ ha
    exact ⟨_, _, ha, hb, rfl, rfl, rfl, rfl, rfl, rfl, rfl⟩

/-- Witness for C1: two concrete submissions on an empty table for
entrant 0 from device `"d"`, scores (1,2,3) then (5,4,3). -/
theorem api_rate_upsert_twice_witness :
    RateResult.ok = RateResult.ok ∧ RateResult.ok = RateResult.ok ∧
    ∃ ra rb : Row,
      rowsKey ⟨[{ id := 1, entrant_index := 0, taste := 1, presentation := 2, easy := 3,
                  judge := none, device_id := "d", one_word := none, created_at := 10 }], 2⟩
        0 "d" = [ra] ∧
      rowsKey ⟨[{ id := 1, entrant_index := 0, taste := 5, presentation := 4, easy := 3,
                  judge := none, device_id := "d", one_word := none, created_at := 10 }], 2⟩
        0 "d" = [rb] ∧
      rb.id = ra.id ∧ rb.created_at = ra.created_at ∧
      rb.taste = 5 ∧ rb.presentation = 4 ∧ rb.easy = 3 ∧
      rb.judge = sanitize_judge none ∧ rb.one_word = sanitize_one_word none :=
  api_rate_upsert_twice ⟨[], 1⟩ "d" 0 1 2 3 5 4 3 none none none none 10 20
    (by decide) (by decide) (by decide) (by decide) (by decide)
    (by decide) (by decide) (by decide) (by decide)
    _ _ _ _ (by decide) (by decide)

/-! ### Generic infrastructure: insertion sort by a boolean comparator,
option-valued mapping (a loop that can raise), Python list indexing -/

def insertLe (le : α → α → Bool) (a : α) : List α → List α
  | [] => [a]
  | b :: l => if le a b then a :: b :: l else b :: insertLe le a l

def sortByLe (le : α → α → Bool) : List α → List α
  | [] => []
  | a :: l => insertLe le a (sortByLe le l)

theorem insertLe_perm (le : α → α → Bool) (a : α) (l : List α) :
    List.Perm (insertLe le a l) (a :: l) := by
  induction l with
  | nil => exact List.Perm.refl _
  | cons b t ih =>
    unfold insertLe
    by_cases hab : le a b = true
    · rw [if_pos hab]
    · rw [if_neg hab]
      exact (ih.cons b).trans (List.Perm.swap a b t)

theorem sortByLe_perm (le : α → α → Bool) (l : List α) :
    List.Perm (sortByLe le l) l := by
  induction l with
  | nil => exact List.Perm.refl _
  | cons a t ih =>
    unfold sortByLe
    exact (insertLe_perm le a (sortByLe le t)).trans (ih.cons a)

theorem insertLe_pairwise (le : α → α → Bool)
    (htot : ∀ a b, le a b = true ∨ le b a = true)
    (htrans : ∀ a b c, le a b = true → le b c = true → le a c = true)
    (a : α) (l : List α) (h : l.Pairwise (fun x y => le x y = true)) :
    (insertLe le a l).Pairwise (fun x y => le x y = true) := by
  induction l with
  | nil => simp [insertLe]
  | cons b t ih =>
    rcases List.pairwise_cons.mp h with ⟨hb, ht⟩
    unfold insertLe
    by_cases hab : le a b = true
    · rw [if_pos hab]
      refine List.pairwise_cons.mpr ⟨?_, h⟩
      intro y hy
      rcases List.mem_cons.mp hy with rfl | hy
      · exact hab
      · exact htrans a b y hab (hb y hy)
    · rw [if_neg hab]
      refine List.pairwise_cons.mpr ⟨?_, ih ht⟩
      intro y hy
      rcases List.mem_cons.mp ((insertLe_perm le a t).mem_iff.mp hy) with heq | hy
      · rw [heq]
        rcases htot a b with h1 | h1
        · exact absurd h1 hab
        · exact h1
      · exact hb y hy

theorem sortByLe_pairwise (le : α → α → Bool)
    (htot : ∀ a b, le a b = true ∨ le b a = true)
    (htrans : ∀ a b c, le a b = true → le b c = true → le a c = true)
    (l : List α) :
    (sortByLe le l).Pairwise (fun x y => le x y = true) := by
  induction l with
  | nil => simp [sortByLe]
  | cons a t ih => exact insertLe_pairwise le htot htrans a (sortByLe le t) ih

/-- Run an option-producing function over a list, failing if any element
fails (a Python loop whose body can raise). -/
def optMap (f : α → Option β) : List α → Option (List β)
  | [] => some []
  | a :: l =>
    match f a, optMap f l with
    | some b, some bs => some (b :: bs)
    | _, _ => none

theorem optMap_eq_map (f : α → Option β) (g : α → β) :
    ∀ l : List α, (∀ a ∈ l, f a = some (g a)) → optMap f l = some (l.map g) := by
  intro l
  induction l with
  | nil => intro _; rfl
  | cons a t ih =>
    intro h
    have ha : f a = some (g a) := h a (List.mem_cons_self a t)
    have ht := ih fun x hx => h x (List.mem_cons_of_mem a hx)
    unfold optMap
    rw [ha, ht]
    rfl

/-- Python list indexing `l[i]`: negative indices count from the end;
out-of-range access raises (`none`). -/
def pyIndex (l : List α) (i : Int) : Option α :=
  let j := if i < 0 then (l.length : Int) + i else i
  if j < 0 then none else l.get? j.toNat

/-- The entrant name used for a stored (hence valid) index. -/
def entrantName (i : Int) : String := ENTRANTS.getD i.toNat ""

theorem pyIndex_ENTRANTS {i : Int} (h0 : 0 ≤ i) (hl : i < (ENTRANTS.length : Int)) :
    pyIndex ENTRANTS i = some (entrantName i) := by
  unfold pyIndex entrantName
  have hneg : ¬ i < 0 := by omega
  simp only [hneg, if_false]
  have hn : i.toNat < ENTRANTS.length := by omega
  rw [List.get?_eq_get hn, List.getD_eq_getElem _ _ hn]
  rfl

/-! ### Python `round(x, 2)`: round half to even at two decimals -/

/-- Round to the nearest integer, ties to even (Python 3 `round`). -/
def roundHalfEven (q : ℚ) : Int :=
  if q - (⌊q⌋ : ℚ) < mkRat 1 2 then ⌊q⌋
  else if mkRat 1 2 < q - (⌊q⌋ : ℚ) then ⌊q⌋ + 1
  else if ⌊q⌋ % 2 = 0 then ⌊q⌋ else ⌊q⌋ + 1

/-- Python `round(x, 2)`. -/
def round2 (q : ℚ) : ℚ := (roundHalfEven (q * 100) : ℚ) / 100

theorem rhe_ge_floor (q : ℚ) : ⌊q⌋ ≤ roundHalfEven q := by
  unfold roundHalfEven
  split_ifs <;> omega

theorem rhe_le_floor_succ (q : ℚ) : roundHalfEven q ≤ ⌊q⌋ + 1 := by
  unfold roundHalfEven
  split_ifs <;> omega

theorem roundHalfEven_mono {q p : ℚ} (h : q ≤ p) :
    roundHalfEven q ≤ roundHalfEven p := by
  have hf : ⌊q⌋ ≤ ⌊p⌋ := Int.floor_mono h
  by_cases heq : ⌊q⌋ = ⌊p⌋
  · have hqp : q - (⌊q⌋ : ℚ) ≤ p - (⌊p⌋ : ℚ) := by
      rw [← heq]
      have : (⌊q⌋ : ℚ) ≤ (⌊q⌋ : ℚ) := le_refl _
      linarith
    unfold roundHalfEven
    rw [heq]
    split_ifs with h1 h2 h3 h4 h5 h6 h7 h8 <;>
      first
        | omega
        | (exfalso; linarith)
  · have hlt : ⌊q⌋ < ⌊p⌋ := lt_of_le_of_ne hf heq
    calc roundHalfEven q ≤ ⌊q⌋ + 1 := rhe_le_floor_succ q
      _ ≤ ⌊p⌋ := by omega
      _ ≤ roundHalfEven p := rhe_ge_floor p

theorem round2_mono {q p : ℚ} (h : q ≤ p) : round2 q ≤ round2 p := by
  unfold round2
  have h1 : roundHalfEven (q * 100) ≤ roundHalfEven (p * 100) :=
    roundHalfEven_mono (by linarith)
  have h2 : ((roundHalfEven (q * 100) : ℚ)) ≤ ((roundHalfEven (p * 100) : ℚ)) := by
    exact_mod_cast h1
  have h100 : (0 : ℚ) < 100 := by norm_num
  exact (div_le_div_iff_of_pos_right h100).mpr h2


/-! ### Leaderboard `/api/leaderboard` (claim C5) -/

structure Group where
  idx : Int
  votes : Nat
  avg_taste : ℚ
  avg_presentation : ℚ
  avg_easy : ℚ
  avg_total : ℚ
deriving DecidableEq

/-- The rows of one entrant (`GROUP BY entrant_index`). -/
def rowsFor (db : DB) (ei : Int) : List Row :=
  db.rows.filter fun r => r.entrant_index == ei

/-- SQL `AVG` of a quantity over a list of rows. -/
def meanOf (rs : List Row) (f : Row → ℚ) : ℚ :=
  (rs.map f).sum / (rs.length : ℚ)

/-- One `GROUP BY entrant_index` output row of the leaderboard query. -/
def groupOf (db : DB) (ei : Int) : Group :=
  { idx := ei
    votes := (rowsFor db ei).length
    avg_taste := meanOf (rowsFor db ei) fun r => (r.taste : ℚ)
    avg_presentation := meanOf (rowsFor db ei) fun r => (r.presentation : ℚ)
    avg_easy := meanOf (rowsFor db ei) fun r => (r.easy : ℚ)
    avg_total := meanOf (rowsFor db ei) fun r => ((r.taste + r.presentation + r.easy : Int) : ℚ) }

/-- The grouped rows, one per distinct stored entrant index. -/
def groupStats (db : DB) : List Group :=
  ((db.rows.map fun r => r.entrant_index).dedup).map (groupOf db)

/-- `ORDER BY avg_total DESC` (ties in unspecified order). -/
def lbLe (a b : Group) : Bool := decide (b.avg_total ≤ a.avg_total)

/-- One JSON object of the `/api/leaderboard` response. -/
structure LBEntry where
  name : String
  votes : Nat
  avg_taste : ℚ
  avg_presentation : ℚ
  avg_easy : ℚ
  avg_total : ℚ
deriving DecidableEq

/-- The Python list-comprehension body: resolve the name, round the
averages to two decimals. -/
def entryOf (g : Group) (nm : String) : LBEntry :=
  { name := nm, votes := g.votes, avg_taste := round2 g.avg_taste,
    avg_presentation := round2 g.avg_presentation, avg_easy := round2 g.avg_easy,
    avg_total := round2 g.avg_total }

/-- `api_leaderboard` of `app.py`: group, order by average total
descending, then render each group with `ENTRANTS[entrant_index]` and
2-decimal rounding (an out-of-range stored index would raise, hence
`Option`). -/
def api_leaderboard (db : DB) : Option (List LBEntry) :=
  optMap (fun g => (pyIndex ENTRANTS g.idx).map (entryOf g))
    (sortByLe lbLe (groupStats db))

theorem ENTRANTS_nodup : ENTRANTS.Nodup := by decide

theorem entrantName_inj {i j : Int} (h0i : 0 ≤ i) (hi : i < (ENTRANTS.length : Int))
    (h0j : 0 ≤ j) (hj : j < (ENTRANTS.length : Int)) :
    entrantName i = entrantName j ↔ i = j := by
  unfold entrantName
  have hi' : i.toNat < ENTRANTS.length := by omega
  have hj' : j.toNat < ENTRANTS.length := by omega
  rw [List.getD_eq_getElem _ _ hi', List.getD_eq_getElem _ _ hj']
  constructor
  · intro h
    have := (List.Nodup.getElem_inj_iff ENTRANTS_nodup).mp h
    omega
  · intro h
    subst h
    rfl

theorem mem_groupStats_valid {db : DB}
    (hval : ∀ r ∈ db.rows, 0 ≤ r.entrant_index ∧ r.entrant_index < (ENTRANTS.length : Int)) :
    ∀ g ∈ sortByLe lbLe (groupStats db), 0 ≤ g.idx ∧ g.idx < (ENTRANTS.length : Int) := by
  intro g hg
  have hg2 : g ∈ groupStats db := (sortByLe_perm lbLe (groupStats db)).mem_iff.mp hg
  rcases List.mem_map.mp hg2 with ⟨ei, hei, rfl⟩
  rcases List.mem_map.mp (List.mem_dedup.mp hei) with ⟨r, hr, hrei⟩
  have := hval r hr
  unfold groupOf
  simp only
  omega

theorem countP_eq_of_pointwise (p q : α → Bool) (l : List α)
    (h : ∀ x ∈ l, p x = q x) : l.countP p = l.countP q := by
  induction l with
  | nil => rfl
  | cons a t ih =>
    rw [List.countP_cons, List.countP_cons, h a (List.mem_cons_self a t),
      ih fun x hx => h x (List.mem_cons_of_mem a hx)]

/-- Claim C5: on a non-empty table all of whose rows carry a valid
entrant index (the store invariant), the leaderboard succeeds, lists
exactly one entry per entrant having at least one vote (and none for
entrants with zero rows), reports `votes` and the 2-decimal-rounded mean
of `taste+presentation+easy` as `avg_total`, and is sorted descending by
`avg_total`. -/
theorem api_leaderboard_spec (db : DB)
    (hne : db.rows ≠ [])
    (hval : ∀ r ∈ db.rows, 0 ≤ r.entrant_index ∧ r.entrant_index < (ENTRANTS.length : Int)) :
    ∃ lb, api_leaderboard db = some lb ∧
      (∀ i : ℕ, i < ENTRANTS.length →
        lb.countP (fun e => e.name == ENTRANTS.getD i "") =
          (if rowsFor db (i : Int) = [] then 0 else 1)) ∧
      (∀ i : ℕ, i < ENTRANTS.length → rowsFor db (i : Int) ≠ [] →
        ∃ e ∈ lb, e.name = ENTRANTS.getD i "" ∧
          e.votes = (rowsFor db (i : Int)).length ∧
          e.avg_total = round2 (meanOf (rowsFor db (i : Int))
            fun r => ((r.taste + r.presentation + r.easy : Int) : ℚ))) ∧
      lb.Pairwise (fun a b => b.avg_total ≤ a.avg_total) := by
  have hvalid := mem_groupStats_valid hval
  have hmap : api_leaderboard db =
      some ((sortByLe lbLe (groupStats db)).map fun g => entryOf g (entrantName g.idx)) := by
    unfold api_leaderboard
    apply optMap_eq_map
    intro g hg
    rw [pyIndex_ENTRANTS (hvalid g hg).1 (hvalid g hg).2]
    rfl
  refine ⟨_, hmap, ?_, ?_, ?_⟩
  · -- exactly one entry per voted entrant
    intro i hi
    rw [List.countP_map]
    rw [(sortByLe_perm lbLe (groupStats db)).countP_eq]
    unfold groupStats
    rw [List.countP_map]
    refine Eq.trans (countP_eq_of_pointwise _ (fun ei => ei == (i : Int)) _ ?_) ?_
    · intro ei hei
      rcases List.mem_map.mp (List.mem_dedup.mp hei) with ⟨r, hr, hrei⟩
      have hv := hval r hr
      have h0 : 0 ≤ ei := by omega
      have h1 : ei < (ENTRANTS.length : Int) := by omega
      show (entrantName ei == ENTRANTS.getD i "") = (ei == (i : Int))
      have hname : ENTRANTS.getD i "" = entrantName (i : Int) := by
        unfold entrantName
        norm_num
      rw [hname]
      by_cases heq : ei = (i : Int)
      · subst heq
        simp
      · have : entrantName ei ≠ entrantName (i : Int) := by
          intro hc
          exact heq ((entrantName_inj h0 h1 (by omega) (by exact_mod_cast hi)).mp hc)
        simp [this, heq]
    show List.count (i : Int) ((db.rows.map fun r => r.entrant_index).dedup) = _
    by_cases hmem : (i : Int) ∈ (db.rows.map fun r => r.entrant_index).dedup
    · rw [List.count_eq_one_of_mem (List.nodup_dedup _) hmem]
      have : rowsFor db (i : Int) ≠ [] := by
        rcases List.mem_map.mp (List.mem_dedup.mp hmem) with ⟨r, hr, hrei⟩
        intro hc
        have : r ∈ rowsFor db (i : Int) := by
          unfold rowsFor
          rw [List.mem_filter]
          exact ⟨hr, by simp [hrei]⟩
        rw [hc] at this
        exact absurd this (List.not_mem_nil r)
      rw [if_neg this]
    · rw [List.count_eq_zero.mpr hmem]
      have : rowsFor db (i : Int) = [] := by
        by_contra hc
        rcases List.exists_mem_of_ne_nil _ hc with ⟨r, hr⟩
        have hr2 := List.mem_filter.mp hr
        exact hmem (List.mem_dedup.mpr (List.mem_map.mpr
          ⟨r, hr2.1, by have := hr2.2; simp at this; omega⟩))
      rw [if_pos this]
  · -- per-entrant values
    intro i hi hne2
    have hmem : (i : Int) ∈ (db.rows.map fun r => r.entrant_index).dedup := by
      rcases List.exists_mem_of_ne_nil _ hne2 with ⟨r, hr⟩
      have hr2 := List.mem_filter.mp hr
      exact List.mem_dedup.mpr (List.mem_map.mpr
        ⟨r, hr2.1, by have := hr2.2; simp at this; omega⟩)
    have hg : groupOf db (i : Int) ∈ groupStats db :=
      List.mem_map.mpr ⟨(i : Int), hmem, rfl⟩
    have hg2 : groupOf db (i : Int) ∈ sortByLe lbLe (groupStats db) :=
      (sortByLe_perm lbLe (groupStats db)).mem_iff.mpr hg
    refine ⟨entryOf (groupOf db (i : Int)) (entrantName (i : Int)),
      List.mem_map.mpr ⟨_, hg2, rfl⟩, ?_, rfl, rfl⟩
    show entrantName (i : Int) = ENTRANTS.getD i ""
    unfold entrantName
    rw [Int.toNat_natCast]
  · -- sorted descending by avg_total
    have hs := sortByLe_pairwise lbLe
      (fun a b => by
        unfold lbLe
        rcases le_total b.avg_total a.avg_total with h | h
        · exact Or.inl (by simpa using h)
        · exact Or.inr (by simpa using h))
      (fun a b c hab hbc => by
        unfold lbLe at hab hbc ⊢
        simp only [decide_eq_true_iff] at hab hbc ⊢
        exact le_trans hbc hab)
      (groupStats db)
    rw [List.pairwise_map]
    refine hs.imp ?_
    intro a b hab
    unfold lbLe at hab
    simp only [decide_eq_true_iff] at hab
    show round2 b.avg_total ≤ round2 a.avg_total
    exact round2_mono hab

/-- The table of testable property 5 of the spec: entrant 0 with row
totals 10, 12, 14 and entrant 1 with totals 6, 8. -/
def dbC5W : DB :=
  ⟨[{ id := 1, entrant_index := 0, taste := 4, presentation := 3, easy := 3,
      judge := none, device_id := "d1", one_word := none, created_at := 1 },
    { id := 2, entrant_index := 0, taste := 5, presentation := 4, easy := 3,
      judge := none, device_id := "d2", one_word := none, created_at := 2 },
    { id := 3, entrant_index := 0, taste := 5, presentation := 5, easy := 4,
      judge := none, device_id := "d3", one_word := none, created_at := 3 },
    { id := 4, entrant_index := 1, taste := 2, presentation := 2, easy := 2,
      judge := none, device_id := "d1", one_word := none, created_at := 4 },
    { id := 5, entrant_index := 1, taste := 3, presentation := 3, easy := 2,
      judge := none, device_id := "d2", one_word := none, created_at := 5 }], 6⟩

/-- Witness for C5: the theorem applied to the concrete two-entrant
table above. -/
theorem api_leaderboard_spec_witness :
    ∃ lb, api_leaderboard dbC5W = some lb ∧
      (∀ i : ℕ, i < ENTRANTS.length →
        lb.countP (fun e => e.name == ENTRANTS.getD i "") =
          (if rowsFor dbC5W (i : Int) = [] then 0 else 1)) ∧
      (∀ i : ℕ, i < ENTRANTS.length → rowsFor dbC5W (i : Int) ≠ [] →
        ∃ e ∈ lb, e.name = ENTRANTS.getD i "" ∧
          e.votes = (rowsFor dbC5W (i : Int)).length ∧
          e.avg_total = round2 (meanOf (rowsFor dbC5W (i : Int))
            fun r => ((r.taste + r.presentation + r.easy : Int) : ℚ))) ∧
      lb.Pairwise (fun a b => b.avg_total ≤ a.avg_total) :=
  api_leaderboard_spec dbC5W (by decide) (by decide)


/-! ### Word counts `/api/words` (claim C6) -/

/-- SQLite `TRIM`: strip space characters (0x20) from both ends. -/
def sqlTrim (s : String) : String :=
  String.mk (((s.toList.dropWhile (fun c => c = ' ')).reverse.dropWhile
    (fun c => c = ' ')).reverse)

/-- SQLite `LOWER`: ASCII-only lowercasing. -/
def sqlLowerChar (c : Char) : Char :=
  if 'A' ≤ c ∧ c ≤ 'Z' then Char.ofNat (c.toNat + 32) else c

def sqlLower (s : String) : String := String.mk (s.toList.map sqlLowerChar)

/-- The `WHERE one_word IS NOT NULL AND TRIM(one_word) != ''` filter. -/
def keepRow (r : Row) : Bool :=
  r.one_word.isSome && (sqlTrim (r.one_word.getD "") != "")

/-- `LOWER(TRIM(one_word))`, the grouping key inside one entrant. -/
def procWord (r : Row) : String := sqlLower (sqlTrim (r.one_word.getD ""))

def keptRows (db : DB) : List Row := db.rows.filter keepRow

/-- The distinct `(entrant_index, LOWER(TRIM(one_word)))` group keys. -/
def wordKeys (db : DB) : List (Int × String) :=
  ((keptRows db).map fun r => (r.entrant_index, procWord r)).dedup

/-- `COUNT(*)` for one group key. -/
def wcount (db : DB) (ei : Int) (w : String) : Nat :=
  ((keptRows db).filter fun r => r.entrant_index == ei && procWord r == w).length

/-- One result row of the words query. -/
@[ext]
structure WordRow where
  idx : Int
  word : String
  cnt : Nat
deriving DecidableEq

def wordTriples (db : DB) : List WordRow :=
  (wordKeys db).map fun k => ⟨k.1, k.2, wcount db k.1 k.2⟩

/-- `ORDER BY entrant_index ASC, c DESC, w ASC` (a total order on the
distinct group keys). -/
def wtLe (a b : WordRow) : Bool :=
  decide (a.idx < b.idx ∨ (a.idx = b.idx ∧
    (b.cnt < a.cnt ∨ (a.cnt = b.cnt ∧ a.word ≤ b.word))))

def sortedTriples (db : DB) : List WordRow := sortByLe wtLe (wordTriples db)

/-- `out.setdefault(name, []).append({...})` on the insertion-ordered
dict, modelled as an association list. -/
def addWord (m : List (String × List (String × Nat))) (nm w : String) (c : Nat) :
    List (String × List (String × Nat)) :=
  if m.any fun p => p.1 == nm then
    m.map fun p => if p.1 == nm then (p.1, p.2 ++ [(w, c)]) else p
  else m ++ [(nm, [(w, c)])]

/-- `api_words` of `app.py`: the grouped/ordered query rows, each name
resolved with `ENTRANTS[entrant_index]` (raising on an invalid stored
index), folded into the per-name mapping. -/
def api_words (db : DB) : Option (List (String × List (String × Nat))) :=
  (optMap (fun t => (pyIndex ENTRANTS t.idx).map fun nm => (nm, t.word, t.cnt))
      (sortedTriples db)).map
    fun ts => ts.foldl (fun m t => addWord m t.1 t.2.1 t.2.2) []

/-- Value stored under a name in the association-list mapping. -/
def valOf (m : List (String × List (String × Nat))) (nm : String) :
    Option (List (String × Nat)) :=
  (m.find? fun p => p.1 == nm).map fun p => p.2

theorem find?_map_keyfix (f : (String × List (String × Nat)) → (String × List (String × Nat)))
    (hf : ∀ p, (f p).1 = p.1) (m : List (String × List (String × Nat))) (nm : String) :
    (m.map f).find? (fun p => p.1 == nm) =
      ((m.find? fun p => p.1 == nm).map f) := by
  induction m with
  | nil => rfl
  | cons p t ih =>
    simp only [List.map_cons, List.find?]
    rw [hf p]
    by_cases hc : (p.1 == nm) = true
    · simp [hc]
    · simp [hc, ih]

theorem valOf_addWord (m : List (String × List (String × Nat))) (nm' w : String)
    (c : Nat) (nm : String) :
    valOf (addWord m nm' w c) nm =
      if nm' = nm then some ((valOf m nm).getD [] ++ [(w, c)]) else valOf m nm := by
  unfold addWord
  by_cases hany : (m.any fun p => p.1 == nm') = true
  · rw [if_pos hany]
    unfold valOf
    rw [find?_map_keyfix _ (by
      intro p
      by_cases hp : (p.1 == nm') = true <;> simp [hp]) m nm]
    by_cases heq : nm' = nm
    · subst heq
      rcases hq : m.find? (fun p => p.1 == nm') with _ | q
      · rw [List.find?_eq_none] at hq
        rw [List.any_eq_true] at hany
        rcases hany with ⟨p, hp, hp2⟩
        exact absurd hp2 (hq p hp)
      · have hq2 : (q.1 == nm') = true := by
          have := List.find?_some hq
          exact this
        rw [hq, if_pos rfl]
        show some ((if (q.1 == nm') = true then (q.1, q.2 ++ [(w, c)]) else q).2) =
          some (q.2 ++ [(w, c)])
        rw [if_pos hq2]
    · rw [if_neg heq]
      rcases hq : m.find? (fun p => p.1 == nm) with _ | q
      · rw [hq]
        rfl
      · have hq2 : (q.1 == nm) = true := by
          have := List.find?_some hq
          exact this
        have hq3 : ¬ (q.1 == nm') = true := by
          intro hcc
          exact heq ((beq_iff_eq.mp hcc).symm.trans (beq_iff_eq.mp hq2))
        rw [hq]
        show some ((if (q.1 == nm') = true then (q.1, q.2 ++ [(w, c)]) else q).2) =
          some q.2
        rw [if_neg hq3]
  · rw [if_neg hany]
    have hany2 : ∀ x ∈ m, ¬ (x.1 == nm') = true := by
      simp only [Bool.not_eq_true] at hany
      rw [List.any_eq_false] at hany
      exact hany
    unfold valOf
    rw [List.find?_append]
    by_cases heq : nm' = nm
    · subst heq
      have h0 : m.find? (fun p => p.1 == nm') = none := List.find?_eq_none.mpr hany2
      rw [if_pos rfl, h0]
      simp [List.find?]
    · rw [if_neg heq]
      have h1 : List.find? (fun p => p.1 == nm) [(nm', [(w, c)])] = none := by
        rw [List.find?_eq_none]
        intro x hx
        rw [List.mem_singleton] at hx
        subst hx
        intro hcc
        exact heq (beq_iff_eq.mp hcc)
      rcases hq : m.find? (fun p => p.1 == nm) with _ | q
      · rw [hq, h1]
        rfl
      · rw [hq]
        rfl

theorem valOf_foldl_addWord :
    ∀ (ts : List (String × String × Nat)) (m : List (String × List (String × Nat)))
      (nm : String),
    valOf (ts.foldl (fun m t => addWord m t.1 t.2.1 t.2.2) m) nm =
      if (valOf m nm).isSome = true ∨ (ts.any fun t => t.1 == nm) = true then
        some ((valOf m nm).getD [] ++
          ((ts.filter fun t => t.1 == nm).map fun t => (t.2.1, t.2.2)))
      else none := by
  intro ts
  induction ts with
  | nil =>
    intro m nm
    rcases h : valOf m nm with _ | v <;> simp [h]
  | cons t ts ih =>
    intro m nm
    rw [List.foldl_cons, ih (addWord m t.1 t.2.1 t.2.2) nm, valOf_addWord,
      List.any_cons, List.filter_cons]
    by_cases hc : (t.1 == nm) = true
    · have heq : t.1 = nm := beq_iff_eq.mp hc
      rw [if_pos heq, if_pos hc]
      have hsome : (some ((valOf m nm).getD [] ++ [(t.2.1, t.2.2)])).isSome = true := rfl
      have hcond : (valOf m nm).isSome = true ∨ (t.1 == nm || ts.any fun t => t.1 == nm) = true := by
        refine Or.inr ?_
        rw [hc]
        simp
      rw [if_pos (Or.inl hsome), if_pos hcond, List.map_cons]
      simp [List.append_assoc]
    · have heq : ¬ t.1 = nm := fun h => hc (beq_iff_eq.mpr h)
      rw [if_neg heq, if_neg hc]
      by_cases h2 : (valOf m nm).isSome = true ∨ (ts.any fun t => t.1 == nm) = true
      · have hcond : (valOf m nm).isSome = true ∨ (t.1 == nm || ts.any fun t => t.1 == nm) = true := by
          rcases h2 with h | h
          · exact Or.inl h
          · refine Or.inr ?_
            rw [h]
            simp
        rw [if_pos h2, if_pos hcond]
      · have hcond : ¬ ((valOf m nm).isSome = true ∨ (t.1 == nm || ts.any fun t => t.1 == nm) = true) := by
          intro hcc
          rcases hcc with h | h
          · exact h2 (Or.inl h)
          · rw [Bool.or_eq_true] at h
            rcases h with h | h
            · exact hc h
            · exact h2 (Or.inr h)
        rw [if_neg h2, if_neg hcond]

theorem mem_wordKeys {db : DB} {k : Int × String} :
    k ∈ wordKeys db ↔
      ∃ r ∈ db.rows, keepRow r = true ∧ r.entrant_index = k.1 ∧ procWord r = k.2 := by
  unfold wordKeys keptRows
  rw [List.mem_dedup, List.mem_map]
  constructor
  · rintro ⟨r, hr, heq⟩
    have hr2 := List.mem_filter.mp hr
    refine ⟨r, hr2.1, hr2.2, ?_, ?_⟩
    · rw [← heq]
    · rw [← heq]
  · rintro ⟨r, hr, hkeep, h1, h2⟩
    refine ⟨r, List.mem_filter.mpr ⟨hr, hkeep⟩, ?_⟩
    rw [h1, h2]

theorem mem_wordTriples {db : DB} {t : WordRow} :
    t ∈ wordTriples db ↔
      (t.idx, t.word) ∈ wordKeys db ∧ t.cnt = wcount db t.idx t.word := by
  unfold wordTriples
  rw [List.mem_map]
  constructor
  · rintro ⟨k, hk, heq⟩
    rw [← heq]
    exact ⟨hk, rfl⟩
  · rintro ⟨hk, hc⟩
    refine ⟨(t.idx, t.word), hk, ?_⟩
    cases t with
    | mk idx word cnt =>
      simp only at hc ⊢
      rw [hc]

theorem wcount_pos_iff {db : DB} {ei : Int} {w : String} :
    0 < wcount db ei w ↔
      ∃ r ∈ db.rows, keepRow r = true ∧ r.entrant_index = ei ∧ procWord r = w := by
  unfold wcount keptRows
  rw [List.length_pos]
  constructor
  · intro h
    rcases List.exists_mem_of_ne_nil _ h with ⟨r, hr⟩
    have h1 := List.mem_filter.mp hr
    have h2 := List.mem_filter.mp h1.1
    have h3 := h1.2
    rw [Bool.and_eq_true] at h3
    exact ⟨r, h2.1, h2.2, beq_iff_eq.mp h3.1, beq_iff_eq.mp h3.2⟩
  · rintro ⟨r, hr, hkeep, h1, h2⟩
    intro hnil
    have : r ∈ List.filter (fun r => r.entrant_index == ei && procWord r == w)
        (List.filter keepRow db.rows) := by
      refine List.mem_filter.mpr ⟨List.mem_filter.mpr ⟨hr, hkeep⟩, ?_⟩
      rw [Bool.and_eq_true]
      exact ⟨beq_iff_eq.mpr h1, beq_iff_eq.mpr h2⟩
    rw [hnil] at this
    exact absurd this (List.not_mem_nil r)

theorem wtLe_total : ∀ a b : WordRow, wtLe a b = true ∨ wtLe b a = true := by
  intro a b
  unfold wtLe
  simp only [decide_eq_true_iff]
  rcases lt_trichotomy a.idx b.idx with h | h | h
  · exact Or.inl (Or.inl h)
  · rcases lt_trichotomy a.cnt b.cnt with h2 | h2 | h2
    · exact Or.inr (Or.inr ⟨h.symm, Or.inl h2⟩)
    · rcases le_total a.word b.word with h3 | h3
      · exact Or.inl (Or.inr ⟨h, Or.inr ⟨h2, h3⟩⟩)
      · exact Or.inr (Or.inr ⟨h.symm, Or.inr ⟨h2.symm, h3⟩⟩)
    · exact Or.inl (Or.inr ⟨h, Or.inl h2⟩)
  · exact Or.inr (Or.inl h)

theorem wtLe_trans : ∀ a b c : WordRow,
    wtLe a b = true → wtLe b c = true → wtLe a c = true := by
  intro a b c hab hbc
  unfold wtLe at hab hbc ⊢
  simp only [decide_eq_true_iff] at hab hbc ⊢
  rcases hab with h1 | ⟨h1, h1'⟩
  · rcases hbc with h2 | ⟨h2, _⟩
    · exact Or.inl (by omega)
    · exact Or.inl (by omega)
  · rcases hbc with h2 | ⟨h2, h2'⟩
    · exact Or.inl (by omega)
    · refine Or.inr ⟨by omega, ?_⟩
      rcases h1' with h3 | ⟨h3, h3'⟩
      · rcases h2' with h4 | ⟨h4, _⟩
        · exact Or.inl (by omega)
        · exact Or.inl (by omega)
      · rcases h2' with h4 | ⟨h4, h4'⟩
        · exact Or.inl (by omega)
        · exact Or.inr ⟨by omega, le_trans h3' h4'⟩

theorem getD_entrantName (i : ℕ) : ENTRANTS.getD i "" = entrantName (i : Int) := by
  unfold entrantName
  norm_num

/-- Entrant 0 rated by three devices with one_word values
`"Good"`, `"good"`, `"Bad"` (testable property 6 of the spec). -/
def dbC6W : DB :=
  ⟨[{ id := 1, entrant_index := 0, taste := 5, presentation := 5, easy := 5,
      judge := none, device_id := "d1", one_word := some "Good", created_at := 1 },
    { id := 2, entrant_index := 0, taste := 4, presentation := 4, easy := 4,
      judge := none, device_id := "d2", one_word := some "good", created_at := 2 },
    { id := 3, entrant_index := 0, taste := 3, presentation := 3, easy := 3,
      judge := none, device_id := "d3", one_word := some "Bad", created_at := 3 }], 4⟩

/-- Claim C6: on a table whose rows carry valid entrant indices,
`api_words` succeeds; an entrant's name is present in the mapping iff
the entrant has a row with a non-empty one_word; each listed pair holds
a positive occurrence count of its (trimmed, lowercased) word, every
word with a positive count is listed, the words of one entrant are
distinct, and each entrant's list is ordered by count descending then
word ascending.  In particular the one_word values `"Good"`, `"good"`,
`"Bad"` for entrant 0 yield `[("good", 2), ("bad", 1)]`. -/
theorem api_words_spec (db : DB)
    (hval : ∀ r ∈ db.rows, 0 ≤ r.entrant_index ∧ r.entrant_index < (ENTRANTS.length : Int)) :
    (∃ out, api_words db = some out ∧
      (∀ i : ℕ, i < ENTRANTS.length →
        ((valOf out (ENTRANTS.getD i "")).isSome = true ↔
          (db.rows.any fun r => r.entrant_index == (i : Int) && keepRow r) = true)) ∧
      (∀ i : ℕ, i < ENTRANTS.length → ∀ ws, valOf out (ENTRANTS.getD i "") = some ws →
        (∀ wc ∈ ws, wc.2 = wcount db (i : Int) wc.1 ∧ 0 < wc.2) ∧
        (∀ w, 0 < wcount db (i : Int) w → (w, wcount db (i : Int) w) ∈ ws) ∧
        (ws.map Prod.fst).Nodup ∧
        ws.Pairwise fun x y => y.2 < x.2 ∨ (x.2 = y.2 ∧ x.1 ≤ y.1))) ∧
    api_words dbC6W = some [("Javier", [("good", 2), ("bad", 1)])] := by
  have hvalidT : ∀ t ∈ sortedTriples db, 0 ≤ t.idx ∧ t.idx < (ENTRANTS.length : Int) := by
    intro t ht
    have ht2 : t ∈ wordTriples db := (sortByLe_perm wtLe (wordTriples db)).mem_iff.mp ht
    rcases mem_wordTriples.mp ht2 with ⟨hk, _⟩
    rcases mem_wordKeys.mp hk with ⟨r, hr, _, hei, _⟩
    have hv := hval r hr
    have hei2 : r.entrant_index = t.idx := hei
    omega
  have hres : api_words db = some
      (((sortedTriples db).map fun t => (entrantName t.idx, t.word, t.cnt)).foldl
        (fun m t => addWord m t.1 t.2.1 t.2.2) []) := by
    unfold api_words
    rw [optMap_eq_map _ (fun t => (entrantName t.idx, t.word, t.cnt)) _ (by
      intro t ht
      rw [pyIndex_ENTRANTS (hvalidT t ht).1 (hvalidT t ht).2]
      rfl)]
    rfl
  have hvalOf : ∀ nm, valOf
      (((sortedTriples db).map fun t => (entrantName t.idx, t.word, t.cnt)).foldl
        (fun m t => addWord m t.1 t.2.1 t.2.2) []) nm =
      (if (((sortedTriples db).map fun t => (entrantName t.idx, t.word, t.cnt)).any
          fun p => p.1 == nm) = true then
        some ((((sortedTriples db).map fun t => (entrantName t.idx, t.word, t.cnt)).filter
          (fun p => p.1 == nm)).map fun p => (p.2.1, p.2.2))
      else none) := by
    intro nm
    rw [valOf_foldl_addWord]
    have h0 : valOf ([] : List (String × List (String × Nat))) nm = none := rfl
    rw [h0]
    simp
  -- pointwise name test on the triples of a valid index
  have hnametest : ∀ i : ℕ, i < ENTRANTS.length → ∀ t ∈ sortedTriples db,
      ((entrantName t.idx, t.word, t.cnt).1 == entrantName (i : Int)) = (t.idx == (i : Int)) := by
    intro i hi t ht
    have hv := hvalidT t ht
    show (entrantName t.idx == entrantName (i : Int)) = (t.idx == (i : Int))
    rw [Bool.eq_iff_iff, beq_iff_eq, beq_iff_eq]
    exact entrantName_inj hv.1 hv.2 (by omega) (by exact_mod_cast hi)
  refine ⟨⟨_, hres, ?_, ?_⟩, by decide⟩
  · -- presence
    intro i hi
    rw [getD_entrantName, hvalOf (entrantName (i : Int))]
    have hany : (((sortedTriples db).map fun t => (entrantName t.idx, t.word, t.cnt)).any
        fun p => p.1 == entrantName (i : Int)) =
        ((sortedTriples db).any fun t => t.idx == (i : Int)) := by
      rw [Bool.eq_iff_iff, List.any_eq_true, List.any_eq_true]
      constructor
      · rintro ⟨p, hp, hcond⟩
        rcases List.mem_map.mp hp with ⟨t, ht, heq⟩
        refine ⟨t, ht, ?_⟩
        rw [← hnametest i hi t ht]
        rw [heq]
        exact hcond
      · rintro ⟨t, ht, hcond⟩
        refine ⟨_, List.mem_map.mpr ⟨t, ht, rfl⟩, ?_⟩
        rw [hnametest i hi t ht]
        exact hcond
    rw [hany]
    have hpres : (((sortedTriples db).any fun t => t.idx == (i : Int)) = true ↔
        (db.rows.any fun r => r.entrant_index == (i : Int) && keepRow r) = true) := by
      rw [List.any_eq_true, List.any_eq_true]
      constructor
      · rintro ⟨t, ht, hti⟩
        have ht2 : t ∈ wordTriples db := (sortByLe_perm wtLe (wordTriples db)).mem_iff.mp ht
        rcases mem_wordTriples.mp ht2 with ⟨hk, _⟩
        rcases mem_wordKeys.mp hk with ⟨r, hr, hkeep, hei, _⟩
        refine ⟨r, hr, ?_⟩
        rw [Bool.and_eq_true]
        have hei2 : r.entrant_index = t.idx := hei
        refine ⟨beq_iff_eq.mpr ?_, hkeep⟩
        rw [hei2]
        exact beq_iff_eq.mp hti
      · rintro ⟨r, hr, hcond⟩
        rw [Bool.and_eq_true] at hcond
        have hk : ((i : Int), procWord r) ∈ wordKeys db :=
          mem_wordKeys.mpr ⟨r, hr, hcond.2, beq_iff_eq.mp hcond.1, rfl⟩
        have ht : (⟨(i : Int), procWord r, wcount db (i : Int) (procWord r)⟩ : WordRow) ∈
            wordTriples db := mem_wordTriples.mpr ⟨hk, rfl⟩
        refine ⟨_, (sortByLe_perm wtLe (wordTriples db)).mem_iff.mpr ht, ?_⟩
        exact beq_iff_eq.mpr rfl
    by_cases hc : ((sortedTriples db).any fun t => t.idx == (i : Int)) = true
    · rw [if_pos hc]
      simp only [Option.isSome_some]
      exact ⟨fun _ => hpres.mp hc, fun _ => trivial⟩
    · rw [if_neg hc]
      simp only [Option.isSome_none]
      constructor
      · intro h
        exact absurd h (by decide)
      · intro h
        exact absurd (hpres.mpr h) hc
  · -- values
    intro i hi ws hws
    rw [getD_entrantName, hvalOf (entrantName (i : Int))] at hws
    by_cases hc : (((sortedTriples db).map fun t => (entrantName t.idx, t.word, t.cnt)).any
        fun p => p.1 == entrantName (i : Int)) = true
    swap
    · rw [if_neg hc] at hws
      exact absurd hws (by simp)
    rw [if_pos hc] at hws
    have hfilter : (((sortedTriples db).map fun t => (entrantName t.idx, t.word, t.cnt)).filter
        (fun p => p.1 == entrantName (i : Int))) =
        ((sortedTriples db).filter fun t => t.idx == (i : Int)).map
          fun t => (entrantName t.idx, t.word, t.cnt) := by
      rw [List.filter_map]
      congr 1
      apply List.filter_congr
      intro t ht
      exact hnametest i hi t ht
    rw [hfilter, List.map_map] at hws
    have hws2 : ws = ((sortedTriples db).filter fun t => t.idx == (i : Int)).map
        fun t => (t.word, t.cnt) := (Option.some.inj hws).symm
    have hmemfacts : ∀ t ∈ (sortedTriples db).filter fun t => t.idx == (i : Int),
        t.idx = (i : Int) ∧ t.cnt = wcount db (i : Int) t.word ∧
        (t.idx, t.word) ∈ wordKeys db := by
      intro t ht
      have h1 := List.mem_filter.mp ht
      have hti : t.idx = (i : Int) := beq_iff_eq.mp h1.2
      have ht2 : t ∈ wordTriples db :=
        (sortByLe_perm wtLe (wordTriples db)).mem_iff.mp h1.1
      rcases mem_wordTriples.mp ht2 with ⟨hk, hcnt⟩
      refine ⟨hti, by rw [hcnt, hti], hk⟩
    refine ⟨?_, ?_, ?_, ?_⟩
    · -- each pair correct and positive
      intro wc hwc
      rw [hws2] at hwc
      rcases List.mem_map.mp hwc with ⟨t, ht, heq⟩
      rcases hmemfacts t ht with ⟨hti, hcnt, hk⟩
      rcases mem_wordKeys.mp hk with ⟨r, hr, hkeep, hei, hpw⟩
      constructor
      · rw [← heq]
        exact hcnt
      · rw [← heq]
        show 0 < t.cnt
        rw [hcnt]
        refine wcount_pos_iff.mpr ⟨r, hr, hkeep, ?_, ?_⟩
        · have hei2 : r.entrant_index = t.idx := hei
          omega
        · exact hpw
    · -- completeness
      intro w hw
      rcases wcount_pos_iff.mp hw with ⟨r, hr, hkeep, hei, hpw⟩
      have hk : ((i : Int), w) ∈ wordKeys db :=
        mem_wordKeys.mpr ⟨r, hr, hkeep, hei, hpw⟩
      have ht : (⟨(i : Int), w, wcount db (i : Int) w⟩ : WordRow) ∈ wordTriples db :=
        mem_wordTriples.mpr ⟨hk, rfl⟩
      have ht2 : (⟨(i : Int), w, wcount db (i : Int) w⟩ : WordRow) ∈ sortedTriples db :=
        (sortByLe_perm wtLe (wordTriples db)).mem_iff.mpr ht
      rw [hws2]
      refine List.mem_map.mpr ⟨⟨(i : Int), w, wcount db (i : Int) w⟩, ?_, rfl⟩
      exact List.mem_filter.mpr ⟨ht2, beq_iff_eq.mpr rfl⟩
    · -- distinct words
      have hkeysnodup : (wordKeys db).Nodup := List.nodup_dedup _
      have htriplesnodup : (wordTriples db).Nodup := by
        unfold wordTriples
        refine List.Nodup.map_on ?_ hkeysnodup
        intro x hx y hy hxy
        have h1 : x.1 = y.1 := congrArg WordRow.idx hxy
        have h2 : x.2 = y.2 := congrArg WordRow.word hxy
        exact Prod.ext h1 h2
      have hTnodup : (sortedTriples db).Nodup :=
        ((sortByLe_perm wtLe (wordTriples db)).nodup_iff).mpr htriplesnodup
      have hFnodup : (((sortedTriples db).filter fun t => t.idx == (i : Int))).Nodup :=
        (List.filter_sublist _).nodup hTnodup
      rw [hws2, List.map_map]
      refine List.Nodup.map_on ?_ hFnodup
      intro x hx y hy hxy
      rcases hmemfacts x hx with ⟨hxi, hxc, _⟩
      rcases hmemfacts y hy with ⟨hyi, hyc, _⟩
      have hw : x.word = y.word := hxy
      have hidx : x.idx = y.idx := hxi.trans hyi.symm
      have hcnt : x.cnt = y.cnt := by
        rw [hxc, hyc, hw]
      exact WordRow.ext hidx hw hcnt
    · -- ordering
      have hsorted : (sortedTriples db).Pairwise (fun a b => wtLe a b = true) :=
        sortByLe_pairwise wtLe wtLe_total wtLe_trans _
      have hfsorted : (((sortedTriples db).filter fun t => t.idx == (i : Int))).Pairwise
          (fun a b => wtLe a b = true) :=
        hsorted.sublist (List.filter_sublist _)
      rw [hws2, List.pairwise_map]
      refine List.Pairwise.imp_of_mem ?_ hfsorted
      intro a b ha hb hab
      rcases hmemfacts a ha with ⟨hai, _, _⟩
      rcases hmemfacts b hb with ⟨hbi, _, _⟩
      unfold wtLe at hab
      simp only [decide_eq_true_iff] at hab
      rcases hab with h | ⟨_, h⟩
      · omega
      · rcases h with h | ⟨h1, h2⟩
        · exact Or.inl h
        · exact Or.inr ⟨h1, h2⟩

/-- Witness for C6: the theorem applied to the concrete Good/good/Bad
table. -/
theorem api_words_spec_witness :
    (∃ out, api_words dbC6W = some out ∧
      (∀ i : ℕ, i < ENTRANTS.length →
        ((valOf out (ENTRANTS.getD i "")).isSome = true ↔
          (dbC6W.rows.any fun r => r.entrant_index == (i : Int) && keepRow r) = true)) ∧
      (∀ i : ℕ, i < ENTRANTS.length → ∀ ws, valOf out (ENTRANTS.getD i "") = some ws →
        (∀ wc ∈ ws, wc.2 = wcount dbC6W (i : Int) wc.1 ∧ 0 < wc.2) ∧
        (∀ w, 0 < wcount dbC6W (i : Int) w → (w, wcount dbC6W (i : Int) w) ∈ ws) ∧
        (ws.map Prod.fst).Nodup ∧
        ws.Pairwise fun x y => y.2 < x.2 ∨ (x.2 = y.2 ∧ x.1 ≤ y.1))) ∧
    api_words dbC6W = some [("Javier", [("good", 2), ("bad", 1)])] :=
  api_words_spec dbC6W (by decide)


/-! ### CSV export `/export.csv` (claim C9) -/

/-- Python `s.replace('"', '""')`: double every double-quote character
(single-character pattern, so replacement is a per-character expansion). -/
def pyReplaceQuote (s : String) : String :=
  String.mk (s.toList.foldr
    (fun c acc => if c = '"' then '"' :: '"' :: acc else c :: acc) [])

/-- The local `q(s)` of `export_csv`:
`s = "" if s is None else str(s); '"' + s.replace('"','""') + '"'`. -/
def csvQ (s : Option String) : String :=
  "\"" ++ pyReplaceQuote (s.getD "") ++ "\""

def csvHeader : String :=
  "id,entrant_name,taste,presentation,easy,judge,device_id,one_word,created_at"

/-- `ORDER BY created_at ASC` (ties in unspecified order). -/
def byCreatedLe (a b : Row) : Bool := decide (a.created_at ≤ b.created_at)

/-- One data line of the export: quoted text fields
(entrant name, judge, device_id, one_word), bare numeric/id fields. -/
def csvLine (r : Row) (nm : String) : String :=
  String.intercalate "," [toString r.id, csvQ (some nm), toString r.taste,
    toString r.presentation, toString r.easy, csvQ (some (r.judge.getD "")),
    csvQ (some r.device_id), csvQ (some (r.one_word.getD "")), toString r.created_at]

/-- `export_csv` of `app.py`: rows ordered by `created_at`, a header
chunk then one chunk per row (each chunk ends in the two characters
`\` `n`, faithfully to the `"\\n"` literal in the source). -/
def export_csv (db : DB) : Option (List String) :=
  (optMap (fun r => (pyIndex ENTRANTS r.entrant_index).map fun nm => csvLine r nm ++ "\\n")
      (sortByLe byCreatedLe db.rows)).map
    fun lines => (csvHeader ++ "\\n") :: lines

theorem foldr_quote_expand (l : List Char) :
    l.foldr (fun c acc => if c = '"' then '"' :: '"' :: acc else c :: acc) [] =
      l.flatMap fun c => if c = '"' then ['"', '"'] else [c] := by
  induction l with
  | nil => rfl
  | cons c t ih =>
    rw [List.foldr_cons, List.flatMap_cons, ih]
    by_cases hc : c = '"'
    · rw [if_pos hc, if_pos hc]
      rfl
    · rw [if_neg hc, if_neg hc]
      rfl

theorem count_foldr_quote (l : List Char) :
    (l.foldr (fun c acc => if c = '"' then '"' :: '"' :: acc else c :: acc) []).count '"' =
      2 * l.count '"' := by
  induction l with
  | nil => rfl
  | cons c t ih =>
    rw [List.foldr_cons, List.count_cons]
    by_cases hc : c = '"'
    · rw [if_pos hc, List.count_cons, List.count_cons, ih]
      subst hc
      simp
      omega
    · rw [if_neg hc, List.count_cons, ih]
      have : ¬ (c == '"') = true := by
        intro hcc
        exact hc (beq_iff_eq.mp hcc)
      simp [this]

/-- The row of testable property 8 of the spec: judge `O"Brien`. -/
def dbC9W : DB :=
  ⟨[{ id := 1, entrant_index := 0, taste := 5, presentation := 4, easy := 3,
      judge := some "O\"Brien", device_id := "dev1", one_word := some "tasty",
      created_at := 0 }], 2⟩

/-- Claim C9: in the CSV export every text field (entrant name, judge,
device_id, one_word) is rendered via `csvQ`: enclosed in double quotes
with every interior quote doubled (character-level characterization and
quote count), while id/numeric fields are rendered bare; the export is
the header chunk followed by one `csvLine` chunk per row in
`created_at` order; in particular the row with judge `O"Brien` renders
that field as `"O""Brien"`. -/
theorem export_csv_spec :
    (∀ s : String, (pyReplaceQuote s).toList =
      s.toList.flatMap fun c => if c = '"' then ['"', '"'] else [c]) ∧
    (∀ s : String, (csvQ (some s)).toList.count '"' = 2 + 2 * s.toList.count '"') ∧
    (∀ db : DB,
      (∀ r ∈ db.rows, 0 ≤ r.entrant_index ∧ r.entrant_index < (ENTRANTS.length : Int)) →
      export_csv db = some ((csvHeader ++ "\\n") ::
        (sortByLe byCreatedLe db.rows).map fun r =>
          csvLine r (entrantName r.entrant_index) ++ "\\n")) ∧
    export_csv dbC9W = some [csvHeader ++ "\\n",
      "1,\"Javier\",5,4,3,\"O\"\"Brien\",\"dev1\",\"tasty\",0" ++ "\\n"] := by
  refine ⟨?_, ?_, ?_, by decide⟩
  · intro s
    exact foldr_quote_expand s.toList
  · intro s
    unfold csvQ pyReplaceQuote
    have h1 : ((("\"" : String) ++ String.mk (s.toList.foldr
        (fun c acc => if c = '"' then '"' :: '"' :: acc else c :: acc) []) ++
        "\"")).toList = '"' :: (s.toList.foldr
        (fun c acc => if c = '"' then '"' :: '"' :: acc else c :: acc) []) ++ ['"'] := by
      show (("\"" : String) ++ _ ++ ("\"" : String)).data = _
      rw [String.data_append, String.data_append]
      rfl
    rw [show (some s).getD "" = s from rfl, h1]
    simp only [List.count_cons, List.count_append, count_foldr_quote]
    simp
    omega
  · intro db hval
    have hvalid : ∀ r ∈ sortByLe byCreatedLe db.rows,
        0 ≤ r.entrant_index ∧ r.entrant_index < (ENTRANTS.length : Int) := by
      intro r hr
      exact hval r ((sortByLe_perm byCreatedLe db.rows).mem_iff.mp hr)
    unfold export_csv
    rw [optMap_eq_map _ (fun r => csvLine r (entrantName r.entrant_index) ++ "\\n") _ (by
      intro r hr
      rw [pyIndex_ENTRANTS (hvalid r hr).1 (hvalid r hr).2]
      rfl)]
    rfl

/-- Witness for C9: the conjunct about a whole export applied at the
one-row `O"Brien` table. -/
theorem export_csv_spec_witness :
    export_csv dbC9W = some ((csvHeader ++ "\\n") ::
      (sortByLe byCreatedLe dbC9W.rows).map fun r =>
        csvLine r (entrantName r.entrant_index) ++ "\\n") :=
  export_csv_spec.2.2.1 dbC9W (by decide)

/-! ### Admin reset (claim C8) -/

/-- Claim C8: with the session flag set, the reset deletes every row and
every subsequent read (leaderboard, word counts, own-rating lookup, CSV
export) returns an empty result; without the flag, the table is
untouched, nothing is deleted, and the caller is redirected to the admin
page, which renders the login prompt when the flag is unset. -/
theorem admin_reset_spec (db : DB) (ei : Int) (dev : String) :
    (admin_reset true db).1.rows = [] ∧
    (admin_reset true db).2 = true ∧
    api_leaderboard (admin_reset true db).1 = some [] ∧
    api_words (admin_reset true db).1 = some [] ∧
    findRow (admin_reset true db).1 ei dev = none ∧
    export_csv (admin_reset true db).1 = some [csvHeader ++ "\\n"] ∧
    admin_reset false db = (db, false) ∧
    admin_get false = AdminPage.login :=
  ⟨rfl, rfl, rfl, rfl, rfl, rfl, rfl, rfl⟩

/-! ### Reachable-state invariant (claim C10) -/

/-- A client-visible mutating operation: a rating submission or an admin
reset attempt (the only code paths that write the `ratings` table). -/
inductive Op where
  | rate : Payload → String → Nat → Op
  | reset : Bool → Op

/-- State transition of the store under one request. -/
def step (db : DB) : Op → DB
  | .rate data dev now => (api_rate db data dev now).1
  | .reset a => (admin_reset a db).1

/-- Every stored row references a valid entrant. -/
def ValidDB (db : DB) : Prop :=
  ∀ r ∈ db.rows, 0 ≤ r.entrant_index ∧ r.entrant_index < (ENTRANTS.length : Int)

theorem upsert_valid {db : DB} {ei t p e : Int} {j : Option String} {dev : String}
    {w : Option String} {now : Nat}
    (hdb : ValidDB db) (h0 : 0 ≤ ei) (h1 : ei < (ENTRANTS.length : Int)) :
    ValidDB (upsert db ei t p e j dev w now) := by
  unfold upsert
  by_cases hany : db.rows.any (keyMatch ei dev) = true
  · rw [hany]
    intro r hr
    rcases List.mem_map.mp hr with ⟨r0, hr0, heq⟩
    have hv := hdb r0 hr0
    by_cases hk : keyMatch ei dev r0 = true
    · rw [if_pos hk] at heq
      rw [← heq]
      exact hv
    · rw [if_neg hk] at heq
      rw [← heq]
      exact hv
  · rw [Bool.not_eq_true] at hany
    rw [hany]
    intro r hr
    rcases List.mem_append.mp hr with h | h
    · exact hdb r h
    · rcases List.mem_singleton.mp h with rfl
      exact ⟨h0, h1⟩

theorem step_valid {db : DB} (hdb : ValidDB db) (op : Op) : ValidDB (step db op) := by
  cases op with
  | reset a =>
    cases a with
    | true =>
      intro r hr
      exact absurd hr (List.not_mem_nil r)
    | false => exact hdb
  | rate data dev now =>
    show ValidDB (api_rate db data dev now).1
    unfold api_rate
    rcases h1 : pyToInt data.entrant_index with _ | ei <;>
      rcases h2 : pyToInt data.taste with _ | t <;>
        rcases h3 : pyToInt data.presentation with _ | p <;>
          rcases h4 : pyToInt data.easy with _ | e <;>
            try exact hdb
    show ValidDB ((if ¬ (0 ≤ ei ∧ ei < (ENTRANTS.length : Int)) then
        (db, RateResult.invalidEntrant)
      else if t < 1 ∨ 5 < t then (db, RateResult.invalidScore)
      else if p < 1 ∨ 5 < p then (db, RateResult.invalidScore)
      else if e < 1 ∨ 5 < e then (db, RateResult.invalidScore)
      else (upsert db ei t p e (sanitize_judge data.judge) dev
        (sanitize_one_word data.one_word) now, RateResult.ok)).1)
    by_cases hei : 0 ≤ ei ∧ ei < (ENTRANTS.length : Int)
    · rw [if_neg (not_not_intro hei)]
      by_cases hts : t < 1 ∨ 5 < t
      · rw [if_pos hts]
        exact hdb
      · rw [if_neg hts]
        by_cases hps : p < 1 ∨ 5 < p
        · rw [if_pos hps]
          exact hdb
        · rw [if_neg hps]
          by_cases hes : e < 1 ∨ 5 < e
          · rw [if_pos hes]
            exact hdb
          · rw [if_neg hes]
            exact upsert_valid hdb hei.1 hei.2
    · rw [if_pos hei]
      exact hdb

theorem api_leaderboard_isSome {db : DB} (hval : ValidDB db) :
    (api_leaderboard db).isSome = true := by
  have hvalid : ∀ g ∈ sortByLe lbLe (groupStats db),
      0 ≤ g.idx ∧ g.idx < (ENTRANTS.length : Int) := mem_groupStats_valid hval
  unfold api_leaderboard
  rw [optMap_eq_map _ (fun g => entryOf g (entrantName g.idx)) _ (by
    intro g hg
    rw [pyIndex_ENTRANTS (hvalid g hg).1 (hvalid g hg).2]
    rfl)]
  rfl

theorem api_words_isSome {db : DB} (hval : ValidDB db) :
    (api_words db).isSome = true := by
  have hvalidT : ∀ t ∈ sortedTriples db, 0 ≤ t.idx ∧ t.idx < (ENTRANTS.length : Int) := by
    intro t ht
    have ht2 : t ∈ wordTriples db := (sortByLe_perm wtLe (wordTriples db)).mem_iff.mp ht
    rcases mem_wordTriples.mp ht2 with ⟨hk, _⟩
    rcases mem_wordKeys.mp hk with ⟨r, hr, _, hei, _⟩
    have hv := hval r hr
    have hei2 : r.entrant_index = t.idx := hei
    omega
  unfold api_words
  rw [optMap_eq_map _ (fun t => (entrantName t.idx, t.word, t.cnt)) _ (by
    intro t ht
    rw [pyIndex_ENTRANTS (hvalidT t ht).1 (hvalidT t ht).2]
    rfl)]
  rfl

theorem export_csv_isSome {db : DB} (hval : ValidDB db) :
    (export_csv db).isSome = true := by
  have hvalid : ∀ r ∈ sortByLe byCreatedLe db.rows,
      0 ≤ r.entrant_index ∧ r.entrant_index < (ENTRANTS.length : Int) := by
    intro r hr
    exact hval r ((sortByLe_perm byCreatedLe db.rows).mem_iff.mp hr)
  unfold export_csv
  rw [optMap_eq_map _ (fun r => csvLine r (entrantName r.entrant_index) ++ "\\n") _ (by
    intro r hr
    rw [pyIndex_ENTRANTS (hvalid r hr).1 (hvalid r hr).2]
    rfl)]
  rfl

/-- Claim C10: starting from the empty store, any sequence of requests
(the validated submit path and the admin reset are the only writers)
leaves every stored row with `0 ≤ entrant_index < len(ENTRANTS)`, and
consequently the `ENTRANTS[entrant_index]` lookups of the leaderboard,
word-count and CSV-export operations always succeed. -/
theorem store_invariant (ops : List Op) :
    ValidDB (ops.foldl step ⟨[], 1⟩) ∧
    (api_leaderboard (ops.foldl step ⟨[], 1⟩)).isSome = true ∧
    (api_words (ops.foldl step ⟨[], 1⟩)).isSome = true ∧
    (export_csv (ops.foldl step ⟨[], 1⟩)).isSome = true := by
  have hval : ValidDB (ops.foldl step ⟨[], 1⟩) := by
    have hgen : ∀ (l : List Op) (db : DB), ValidDB db → ValidDB (l.foldl step db) := by
      intro l
      induction l with
      | nil => intro db h; exact h
      | cons op t ih =>
        intro db h
        rw [List.foldl_cons]
        exact ih (step db op) (step_valid h op)
    refine hgen ops ⟨[], 1⟩ ?_
    intro r hr
    exact absurd hr (List.not_mem_nil r)
  exact ⟨hval, api_leaderboard_isSome hval, api_words_isSome hval, export_csv_isSome hval⟩

end MC
